import Mathlib

/-!
Verification of rotee (src/main.rs), a stream-splitting, size-based
log-rotation tool.

Shallow embedding conventions:
* Bytes are modelled as natural numbers (their numeric value is irrelevant
  to every claim).
* The on-disk output-file set is a map from the numeric filename index to
  the (optional) file content.  `outfile_path(p, i)` in the source builds
  the path from a constant name stem and the index `i`; since the stem is
  fixed for the whole run, distinct indices give distinct paths and the
  index alone identifies a file.
* `File::create` truncates, so creating the index-0 file sets its content
  to `[]`.  `rename(i, i+1)` moves the content of slot `i` to slot `i+1`
  (overwriting any occupant) and clears slot `i`.
* `sigprocmask` is called with the constant, valid `how` arguments
  `SIG_BLOCK` and `SIG_SETMASK`; per POSIX it can then only fail on an
  invalid `how`, so both calls are modelled as always succeeding and the
  `== -1` branches of the source are dead.  The mask itself is modelled as
  a set of blocked signal numbers.
* File-system failures of `rename` / `File::create` (possible in the
  source, where they surface as `io::Error` through `?`) are modelled by
  explicit failure oracles in the `..F` variants of the rotation
  functions; the plain variants are the failure-free executions used by
  the main loop.
* The read loop of `run` consumes a finite list of chunks; each `read`
  call returns one chunk, and the end of the list is the final read that
  returns 0 bytes (EOF).  `run` in the source can only fail on I/O errors,
  which are not modelled; the fuel-counted inner loop returns `none` only
  if it would fail to terminate, which the termination theorem rules out.
-/

/-- A byte of the input stream, modelled as a natural number. -/
abbrev Byte := Nat

/-- The on-disk output-file set: `d i` is the content of the output file
with numeric index `i`, or `none` if no such file exists. -/
abbrev Disk := Nat → Option (List Byte)

/-- A directory with no output files. -/
def emptyDisk : Disk := fun _ => none

/-- Overwrite slot `i` of the disk with `v`. -/
def setSlot (d : Disk) (i : Nat) (v : Option (List Byte)) : Disk :=
  fun j => if j = i then v else d j

/-- Effect of `rename(outfile_path(i), outfile_path(i+1))`: slot `i+1`
receives the content of slot `i` (discarding its previous occupant) and
slot `i` becomes empty. -/
def renameStep (d : Disk) (i : Nat) : Disk :=
  setSlot (setSlot d (i + 1) (d i)) i none

/-- The rename loop of `rotate_inner`:
`for i in (0..k).rev() { if exists(i) { rename(i, i+1) } }`, i.e. the
iterations `i = k-1, k-2, ..., 0` in strictly descending order.  The
source runs it with `k = num_files - 1`. -/
def shiftLoop (d : Disk) : Nat → Disk
  | 0 => d
  | k + 1 => if (d k).isSome then shiftLoop (renameStep d k) k else shiftLoop d k

/-- The configuration record of the source (`struct Config`).  The
constant filename stem field plays no role in any claim (files are keyed
by index, see the module comment) and is omitted. -/
structure Config where
  file_size : Nat
  num_files : Nat
  no_echo : Bool
  buffer_size : Nat
deriving DecidableEq

/-- Failure-free `rotate_inner`: drop the old handle (no disk effect),
run the rename loop for `i = num_files - 2 .. 0`, then create a fresh
empty file at index 0. -/
def rotate_inner (cfg : Config) (d : Disk) : Disk :=
  setSlot (shiftLoop d (cfg.num_files - 1)) 0 (some [])

/-- The rename loop with a failure oracle: `fails i = true` means the
`rename` of slot `i` to slot `i+1` returns an error.  On error the loop
aborts via `?`, leaving the disk as already modified by the renames
performed so far (`Except.error` carries that disk). -/
def shiftLoopF (fails : Nat → Bool) (d : Disk) : Nat → Except Disk Disk
  | 0 => Except.ok d
  | k + 1 =>
    if (d k).isSome then
      if fails k then Except.error d
      else shiftLoopF fails (renameStep d k) k
    else shiftLoopF fails d k

/-- `rotate_inner` with failure oracles for the renames and for the final
`File::create`.  `Except.error d` means an `io::Error` was propagated with
the disk left in state `d`. -/
def rotate_inner_f (cfg : Config) (fails : Nat → Bool) (createFail : Bool)
    (d : Disk) : Except Disk Disk :=
  match shiftLoopF fails d (cfg.num_files - 1) with
  | Except.error d1 => Except.error d1
  | Except.ok d1 =>
    if createFail then Except.error d1 else Except.ok (setSlot d1 0 (some []))

/-- A process signal mask: which signal numbers are currently blocked. -/
abbrev SigMask := Nat → Bool

/-- The result of `sigfillset`: every signal blocked. -/
def allSigs : SigMask := fun _ => true

/-- `sigprocmask(SIG_BLOCK, new, ..)` adds `new` to the current mask. -/
def maskUnion (a b : SigMask) : SigMask := fun s => a s || b s

/-- The `rotate` wrapper of the source: save the current signal mask and
block all signals (`sigprocmask(SIG_BLOCK, all_sigs, &old)`), run
`rotate_inner`, then unconditionally restore the saved mask
(`sigprocmask(SIG_SETMASK, &old, null)`) before returning the result or
propagating the error.  Both `sigprocmask` calls use constant valid `how`
arguments and cannot fail (see the module comment), so the critical
section is always entered.  The returned mask is the mask in effect after
the call. -/
def rotate (cfg : Config) (fails : Nat → Bool) (createFail : Bool)
    (d : Disk) (mask : SigMask) : Except (Disk × SigMask) (Disk × SigMask) :=
  let saved := mask
  let _blockedDuringRotation := maskUnion mask allSigs
  match rotate_inner_f cfg fails createFail d with
  | Except.error d1 => Except.error (d1, saved)
  | Except.ok d1 => Except.ok (d1, saved)

/-- The signal mask in effect after a `rotate` call, on either exit path. -/
def maskAfter : Except (Disk × SigMask) (Disk × SigMask) → SigMask
  | Except.ok p => p.2
  | Except.error p => p.2

/-- The disk state carried by a `rotate_inner_f` result (on either path). -/
def resultDisk : Except Disk Disk → Disk
  | Except.ok d => d
  | Except.error d => d

/-- Whether an `Except` result is the success case. -/
def isOkE {α β : Type} : Except α β → Bool
  | Except.ok _ => true
  | Except.error _ => false

/-- The mutable state of the `run` loop: the on-disk file set (slot 0 is
the currently open output file the handle `of` points at), the byte count
`cur_size` of the current file, and the bytes echoed to stdout so far. -/
@[ext]
structure RunState where
  disk : Disk
  curSize : Nat
  mirror : List Byte

/-- One `of.write_all(bytes)` (plus the echo to stdout when enabled):
append `bytes` to the current index-0 file, advance `cur_size`, and
mirror the same bytes in the same order unless `no_echo` is set. -/
def writeBytes (cfg : Config) (st : RunState) (bytes : List Byte) : RunState :=
  { disk := setSlot st.disk 0 (some (((st.disk 0).getD []) ++ bytes)),
    curSize := st.curSize + bytes.length,
    mirror := if cfg.no_echo then st.mirror else st.mirror ++ bytes }

/-- The rotation check at the bottom of the inner loop:
`if cur_size >= config.file_size { of = rotate(..)?; cur_size = 0; }`. -/
def maybeRotate (cfg : Config) (st : RunState) : RunState :=
  if cfg.file_size ≤ st.curSize then
    { st with disk := rotate_inner cfg st.disk, curSize := 0 }
  else st

/-- The inner loop of `run` over one chunk: while unprocessed bytes
remain, take `write_size = min(bytes remaining, file_size - cur_size)`
bytes, write them, and rotate when the file is full.  `rest` is the
unprocessed tail of the chunk (`buf[idx..nbytes]`).  The loop is counted
by fuel; `none` means the fuel ran out, which the termination theorem
shows cannot happen on any real execution. -/
def innerLoop (cfg : Config) : Nat → List Byte → RunState → Option RunState
  | 0, _, _ => none
  | fuel + 1, rest, st =>
    if rest = [] then some st
    else
      let ws := min rest.length (cfg.file_size - st.curSize)
      innerLoop cfg fuel (rest.drop ws) (maybeRotate cfg (writeBytes cfg st (rest.take ws)))

/-- The outer read loop of `run`: each list element is the chunk returned
by one `read` call; the end of the list is the read that returns 0 bytes,
which breaks the loop with success. -/
def runLoop (cfg : Config) : List (List Byte) → RunState → Option RunState
  | [], st => some st
  | chunk :: rest, st =>
    match innerLoop cfg (chunk.length + 1) chunk st with
    | none => none
    | some st1 => runLoop cfg rest st1

/-- The state right after `run` creates the index-0 file and sets
`cur_size = 0`, starting from a directory with no output files. -/
def initState : RunState :=
  { disk := setSlot emptyDisk 0 (some []), curSize := 0, mirror := [] }

/-- The `run` function of the source on a finite input stream. -/
def run (cfg : Config) (chunks : List (List Byte)) : Option RunState :=
  runLoop cfg chunks initState

/-- One byte of data movement: write the byte to the current file (and
mirror it), then rotate if the file reached `file_size`.  The slice-wise
inner loop of `run` is proved equal to folding this step over the chunk. -/
def byteStep (cfg : Config) (st : RunState) (b : Byte) : RunState :=
  maybeRotate cfg (writeBytes cfg st [b])

/-- Byte-at-a-time reference execution of the data-movement loop. -/
def byteFold (cfg : Config) (w : List Byte) (st : RunState) : RunState :=
  w.foldl (byteStep cfg) st

/-- Block `t` of the stream `w` under file-size limit `fs`: the bytes
`w[t*fs .. (t+1)*fs)`. -/
def fileBlock (fs : Nat) (w : List Byte) (t : Nat) : List Byte :=
  (w.drop (t * fs)).take fs

/-- Concatenation of the output files read from the highest index down to
index 0 (missing files contribute nothing). -/
def diskConcat (d : Disk) : Nat → List Byte
  | 0 => []
  | m + 1 => ((d m).getD []) ++ diskConcat d m

/-- Characterisation of every state the data-movement loop can reach
after consuming the stream `w`: with `r` rotations performed so far,
the current file (slot 0) holds the final partial block, slots `1 ..`
hold the retained full blocks youngest-first, every other slot is empty,
`cur_size` counts the bytes of the current file, and the mirror holds the
whole stream when echoing is on. -/
def GoodState (cfg : Config) (w : List Byte) (st : RunState) : Prop :=
  ∃ r,
    w.length = r * cfg.file_size + st.curSize ∧
    st.curSize < cfg.file_size ∧
    (∀ j, j ≤ min r (cfg.num_files - 1) →
      st.disk j = some (fileBlock cfg.file_size w (r - j))) ∧
    (∀ j, min r (cfg.num_files - 1) < j → st.disk j = none) ∧
    st.mirror = (if cfg.no_echo then [] else w)

/-- The exit-code / disk outcome of `main`: validate the configuration in
source order (buffer size, file count, file size), exiting with status 1
before any file is touched on a zero value, then run; an error from `run`
also exits with status 1. -/
structure MainResult where
  exitCode : Nat
  disk : Disk

/-- The `main` function of the source, after argument parsing has filled
the configuration record. -/
def mainModel (cfg : Config) (chunks : List (List Byte)) : MainResult :=
  if cfg.buffer_size = 0 then ⟨1, emptyDisk⟩
  else if cfg.num_files = 0 then ⟨1, emptyDisk⟩
  else if cfg.file_size = 0 then ⟨1, emptyDisk⟩
  else
    match run cfg chunks with
    | some st => ⟨0, st.disk⟩
    | none => ⟨1, emptyDisk⟩

/-! Basic facts about disk slots and the rename loop. -/

theorem setSlot_same (d : Disk) (i : Nat) (v : Option (List Byte)) :
    setSlot d i v i = v := by
  simp [setSlot]

theorem setSlot_other (d : Disk) (i j : Nat) (v : Option (List Byte))
    (h : j ≠ i) : setSlot d i v j = d j := by
  simp [setSlot, h]

theorem renameStep_src (d : Disk) (k : Nat) : renameStep d k k = none := by
  simp [renameStep, setSlot]

theorem renameStep_tgt (d : Disk) (k : Nat) : renameStep d k (k + 1) = d k := by
  have h : k + 1 ≠ k := by omega
  simp [renameStep, setSlot, h]

theorem renameStep_other (d : Disk) (k j : Nat) (h1 : j ≠ k) (h2 : j ≠ k + 1) :
    renameStep d k j = d j := by
  simp [renameStep, setSlot, h1, h2]

/-- Slots above the range of the rename loop are untouched. -/
theorem shiftLoop_gt : ∀ (k : Nat) (d : Disk) (j : Nat), k < j →
    shiftLoop d k j = d j := by
  intro k
  induction k with
  | zero => intro d j _; rfl
  | succ k ih =>
    intro d j h
    by_cases hs : (d k).isSome = true
    · simp only [shiftLoop]
      rw [if_pos hs, ih _ _ (by omega)]
      exact renameStep_other d k j (by omega) (by omega)
    · simp only [shiftLoop]
      rw [if_neg hs]
      exact ih _ _ (by omega)

/-- After the loop runs down to index 0, slot 0 is always vacated. -/
theorem shiftLoop_slot_zero : ∀ (k : Nat) (d : Disk), 1 ≤ k →
    shiftLoop d k 0 = none := by
  intro k
  induction k with
  | zero => intro d h; omega
  | succ k ih =>
    intro d _
    by_cases hs : (d k).isSome = true
    · simp only [shiftLoop]
      rw [if_pos hs]
      rcases Nat.eq_zero_or_pos k with hk | hk
      · subst hk
        exact renameStep_src d 0
      · exact ih _ hk
    · simp only [shiftLoop]
      rw [if_neg hs]
      rcases Nat.eq_zero_or_pos k with hk | hk
      · subst hk
        exact Option.not_isSome_iff_eq_none.mp (by simpa using hs)
      · exact ih _ hk

/-- The topmost slot the loop can write: it receives the old occupant of
the slot below when that exists, and otherwise keeps its old content. -/
theorem shiftLoop_top (d : Disk) (k : Nat) :
    shiftLoop d (k + 1) (k + 1) = if (d k).isSome then d k else d (k + 1) := by
  by_cases hs : (d k).isSome = true
  · simp only [shiftLoop]
    rw [if_pos hs, if_pos hs, shiftLoop_gt k _ (k + 1) (by omega)]
    exact renameStep_tgt d k
  · simp only [shiftLoop]
    rw [if_neg hs, if_neg hs]
    exact shiftLoop_gt k d (k + 1) (by omega)

/-- Middle slots: slot `j` (with `1 ≤ j < k`) ends up holding the old
occupant of slot `j - 1` when that exists, and is empty otherwise (its
own old occupant having been moved up first). -/
theorem shiftLoop_mid : ∀ (k : Nat) (d : Disk) (j : Nat), 1 ≤ j → j < k →
    shiftLoop d k j = if (d (j - 1)).isSome then d (j - 1) else none := by
  intro k
  induction k with
  | zero => intro d j h1 h2; omega
  | succ k ih =>
    intro d j h1 h2
    by_cases hs : (d k).isSome = true
    · simp only [shiftLoop]
      rw [if_pos hs]
      rcases Nat.lt_or_ge j k with hjk | hjk
      · rw [ih _ _ h1 hjk,
          renameStep_other d k (j - 1) (by omega) (by omega)]
      · have hjk2 : j = k := by omega
        obtain ⟨m, rfl⟩ : ∃ m, j = m + 1 := ⟨j - 1, by omega⟩
        subst hjk2
        rw [shiftLoop_top]
        have e1 : renameStep d (m + 1) m =
            d m := renameStep_other d (m + 1) m (by omega) (by omega)
        rw [e1, renameStep_src d (m + 1)]
        simp
    · simp only [shiftLoop]
      rw [if_neg hs]
      rcases Nat.lt_or_ge j k with hjk | hjk
      · exact ih _ _ h1 hjk
      · have hjk2 : j = k := by omega
        obtain ⟨m, rfl⟩ : ∃ m, j = m + 1 := ⟨j - 1, by omega⟩
        subst hjk2
        rw [shiftLoop_top]
        have hnone : d (m + 1) = none :=
          Option.not_isSome_iff_eq_none.mp (by simpa using hs)
        rw [hnone]
        simp

/-! Facts about stream blocks. -/

theorem fileBlock_length (fs : Nat) (w : List Byte) (t : Nat) :
    (fileBlock fs w t).length = min fs (w.length - t * fs) := by
  simp [fileBlock]

/-- A fully retained block has length exactly `fs`. -/
theorem fileBlock_full_length (fs : Nat) (w : List Byte) (t : Nat)
    (h : t * fs + fs ≤ w.length) : (fileBlock fs w t).length = fs := by
  rw [fileBlock_length]
  generalize t * fs = A at h ⊢
  omega

/-- Blocks that end strictly before the end of the stream are unchanged
when a byte is appended to the stream. -/
theorem fileBlock_append_of_lt (fs : Nat) (w : List Byte) (b : Byte) (t : Nat)
    (h : t * fs + fs ≤ w.length) :
    fileBlock fs (w ++ [b]) t = fileBlock fs w t := by
  unfold fileBlock
  rw [List.drop_append_of_le_length (by omega : t * fs ≤ w.length)]
  rw [List.take_append_of_le_length]
  rw [List.length_drop]
  generalize t * fs = A at h ⊢
  omega

/-- Appending a byte to the stream appends it to the current (last,
partial) block. -/
theorem fileBlock_last_append (fs : Nat) (w : List Byte) (b : Byte)
    (r c : Nat) (hW : w.length = r * fs + c) (hc : c < fs) :
    fileBlock fs (w ++ [b]) r = fileBlock fs w r ++ [b] := by
  unfold fileBlock
  rw [List.drop_append_of_le_length (by omega : r * fs ≤ w.length)]
  have hlen : (w.drop (r * fs)).length = c := by
    rw [List.length_drop]
    omega
  rw [List.take_of_length_le (by simp [hlen]; omega),
    List.take_of_length_le (by omega)]

/-- A block starting at or beyond the end of the stream is empty. -/
theorem fileBlock_of_le (fs : Nat) (w : List Byte) (t : Nat)
    (h : w.length ≤ t * fs) : fileBlock fs w t = [] := by
  unfold fileBlock
  rw [List.drop_eq_nil_of_le h]
  simp

/-- The whole current partial block. -/
theorem fileBlock_last (fs : Nat) (w : List Byte) (r c : Nat)
    (hW : w.length = r * fs + c) (hc : c ≤ fs) :
    fileBlock fs w r = w.drop (r * fs) := by
  unfold fileBlock
  apply List.take_of_length_le
  rw [List.length_drop]
  omega

/-- Arithmetic helper: a block earlier than block `b0` of a stream of
length at least `b0 * fs` ends inside the stream. -/
theorem block_end_le (a b0 fs W c : Nat) (h : a + 1 ≤ b0)
    (hW : W = b0 * fs + c) : a * fs + fs ≤ W := by
  have h2 : (a + 1) * fs ≤ b0 * fs := Nat.mul_le_mul_right fs h
  rw [Nat.succ_mul] at h2
  exact h2.trans (hW ▸ Nat.le_add_right _ _)

/-! The effect of a rotation on a well-formed disk.  The disk `d` below is
the state at the moment `cur_size` reaches `file_size`: slot 0 holds the
now-full block `r` of the extended stream `w ++ [b]`, slots `1 ..` hold
the older retained blocks, everything else is empty. -/

theorem rotate_good (cfg : Config) (d : Disk) (w : List Byte) (b : Byte)
    (r c : Nat)
    (hW : w.length = r * cfg.file_size + c)
    (hc : c < cfg.file_size)
    (hfull : c + 1 = cfg.file_size)
    (hd0 : d 0 = some (fileBlock cfg.file_size w r ++ [b]))
    (hsome : ∀ j, 1 ≤ j → j ≤ min r (cfg.num_files - 1) →
      d j = some (fileBlock cfg.file_size w (r - j)))
    (hnone : ∀ j, 1 ≤ j → min r (cfg.num_files - 1) < j → d j = none) :
    (∀ j, j ≤ min (r + 1) (cfg.num_files - 1) →
      rotate_inner cfg d j = some (fileBlock cfg.file_size (w ++ [b]) (r + 1 - j))) ∧
    (∀ j, min (r + 1) (cfg.num_files - 1) < j → rotate_inner cfg d j = none) := by
  have hlen1 : (w ++ [b]).length = (r + 1) * cfg.file_size := by
    simp only [List.length_append, List.length_cons, List.length_nil]
    rw [Nat.succ_mul]
    omega
  have hprev : ∀ j, 1 ≤ j → j ≤ min (r + 1) (cfg.num_files - 1) →
      d (j - 1) = some (fileBlock cfg.file_size (w ++ [b]) (r + 1 - j)) := by
    intro j hj1 hj
    have hjr : j ≤ r + 1 := le_trans hj (Nat.min_le_left _ _)
    have hjn : j ≤ cfg.num_files - 1 := le_trans hj (Nat.min_le_right _ _)
    rcases Nat.eq_zero_or_pos (j - 1) with hj0 | hj2
    · have hj1' : j = 1 := by omega
      subst hj1'
      rw [show (1 : Nat) - 1 = 0 from rfl, hd0,
        show r + 1 - 1 = r by omega,
        fileBlock_last_append cfg.file_size w b r c hW hc]
    · rw [hsome (j - 1) hj2 (Nat.le_min.mpr ⟨by omega, by omega⟩)]
      have hidx : r + 1 - j = r - (j - 1) := by omega
      rw [hidx, fileBlock_append_of_lt cfg.file_size w b (r - (j - 1))
        (block_end_le (r - (j - 1)) r cfg.file_size w.length c (by omega) hW)]
  constructor
  · intro j hj
    rcases Nat.eq_zero_or_pos j with rfl | hj1
    · rw [rotate_inner, setSlot_same,
        show r + 1 - 0 = r + 1 from rfl,
        fileBlock_of_le cfg.file_size (w ++ [b]) (r + 1) (le_of_eq hlen1)]
    · rw [rotate_inner, setSlot_other _ _ _ _ (by omega : j ≠ 0)]
      rcases Nat.lt_or_ge j (cfg.num_files - 1) with hlt | hge
      · rw [shiftLoop_mid (cfg.num_files - 1) d j hj1 hlt, hprev j hj1 hj]
        simp
      · have hje : j = cfg.num_files - 1 := by
          have := le_trans hj (Nat.min_le_right _ _)
          omega
        obtain ⟨m, hmeq⟩ : ∃ m, cfg.num_files - 1 = m + 1 := ⟨j - 1, by omega⟩
        have hjm : j = m + 1 := by omega
        have hp := hprev j hj1 hj
        rw [hjm] at hp ⊢
        rw [show m + 1 - 1 = m by omega] at hp
        rw [hmeq, shiftLoop_top d m, hp]
        simp
  · intro j hj
    have hj1 : 1 ≤ j := by omega
    rw [rotate_inner, setSlot_other _ _ _ _ (by omega : j ≠ 0)]
    rcases Nat.lt_or_ge (cfg.num_files - 1) j with hgt | hle
    · rw [shiftLoop_gt _ _ _ hgt]
      exact hnone j hj1 (by omega)
    · have hr1 : r + 1 < j := by omega
      have hpn : d (j - 1) = none := hnone (j - 1) (by omega) (by omega)
      rcases Nat.lt_or_ge j (cfg.num_files - 1) with hlt | hge2
      · rw [shiftLoop_mid _ _ _ hj1 hlt, hpn]
        simp
      · have hje : j = cfg.num_files - 1 := by omega
        obtain ⟨m, hmeq⟩ : ∃ m, cfg.num_files - 1 = m + 1 := ⟨j - 1, by omega⟩
        have hjm : j = m + 1 := by omega
        rw [hjm] at hpn ⊢
        rw [show m + 1 - 1 = m by omega] at hpn
        rw [hmeq, shiftLoop_top d m, hpn]
        simp
        exact hnone (m + 1) (by omega) (by omega)

/-! Preservation of the reachable-state characterisation. -/

theorem goodState_byteStep (cfg : Config) (hfs : 1 ≤ cfg.file_size)
    (w : List Byte) (b : Byte) (st : RunState) (hg : GoodState cfg w st) :
    GoodState cfg (w ++ [b]) (byteStep cfg st b) := by
  obtain ⟨r, hW, hc, hsome, hnone, hm⟩ := hg
  have hd0 : st.disk 0 = some (fileBlock cfg.file_size w r) :=
    hsome 0 (Nat.zero_le _)
  have hgetD : (st.disk 0).getD [] = fileBlock cfg.file_size w r := by
    rw [hd0]; rfl
  have hw1 : writeBytes cfg st [b] =
      { disk := setSlot st.disk 0 (some (fileBlock cfg.file_size w r ++ [b])),
        curSize := st.curSize + 1,
        mirror := if cfg.no_echo then st.mirror else st.mirror ++ [b] } := by
    simp [writeBytes, hgetD]
  by_cases hrot : cfg.file_size ≤ st.curSize + 1
  · have hfull : st.curSize + 1 = cfg.file_size := by omega
    have hbs : byteStep cfg st b =
        { disk := rotate_inner cfg
            (setSlot st.disk 0 (some (fileBlock cfg.file_size w r ++ [b]))),
          curSize := 0,
          mirror := if cfg.no_echo then st.mirror else st.mirror ++ [b] } := by
      simp only [byteStep, hw1, maybeRotate]
      rw [if_pos hrot]
    rw [hbs]
    obtain ⟨hg3, hg4⟩ := rotate_good cfg
      (setSlot st.disk 0 (some (fileBlock cfg.file_size w r ++ [b])))
      w b r st.curSize hW hc hfull (setSlot_same _ _ _)
      (fun j hj1 hj => by
        rw [setSlot_other _ _ _ _ (by omega : j ≠ 0)]; exact hsome j hj)
      (fun j hj1 hj => by
        rw [setSlot_other _ _ _ _ (by omega : j ≠ 0)]; exact hnone j hj)
    refine ⟨r + 1, ?_, ?_, hg3, hg4, ?_⟩
    · show (w ++ [b]).length = (r + 1) * cfg.file_size + 0
      simp only [List.length_append, List.length_cons, List.length_nil]
      rw [Nat.succ_mul]
      omega
    · show (0 : Nat) < cfg.file_size
      omega
    · show (if cfg.no_echo then st.mirror else st.mirror ++ [b]) =
        if cfg.no_echo then [] else w ++ [b]
      cases hcfg : cfg.no_echo <;> simp [hcfg, hm]
  · have hbs : byteStep cfg st b =
        { disk := setSlot st.disk 0 (some (fileBlock cfg.file_size w r ++ [b])),
          curSize := st.curSize + 1,
          mirror := if cfg.no_echo then st.mirror else st.mirror ++ [b] } := by
      simp only [byteStep, hw1, maybeRotate]
      rw [if_neg hrot]
    rw [hbs]
    refine ⟨r, ?_, ?_, ?_, ?_, ?_⟩
    · show (w ++ [b]).length = r * cfg.file_size + (st.curSize + 1)
      simp only [List.length_append, List.length_cons, List.length_nil]
      omega
    · show st.curSize + 1 < cfg.file_size
      omega
    · intro j hj
      rcases Nat.eq_zero_or_pos j with rfl | hj1
      · show setSlot st.disk 0 (some (fileBlock cfg.file_size w r ++ [b])) 0 = _
        rw [setSlot_same, show r - 0 = r from rfl,
          fileBlock_last_append cfg.file_size w b r st.curSize hW hc]
      · show setSlot st.disk 0 (some (fileBlock cfg.file_size w r ++ [b])) j = _
        have hjr : j ≤ r := le_trans hj (Nat.min_le_left _ _)
        rw [setSlot_other _ _ _ _ (by omega : j ≠ 0), hsome j hj,
          fileBlock_append_of_lt cfg.file_size w b (r - j)
            (block_end_le (r - j) r cfg.file_size w.length st.curSize
              (by omega) hW)]
    · intro j hj
      show setSlot st.disk 0 (some (fileBlock cfg.file_size w r ++ [b])) j = none
      rw [setSlot_other _ _ _ _ (by omega : j ≠ 0)]
      exact hnone j hj
    · show (if cfg.no_echo then st.mirror else st.mirror ++ [b]) =
        if cfg.no_echo then [] else w ++ [b]
      cases hcfg : cfg.no_echo <;> simp [hcfg, hm]

/-- The initial state of `run` is well-formed for the empty stream. -/
theorem goodState_init (cfg : Config) (hfs : 1 ≤ cfg.file_size) :
    GoodState cfg [] initState := by
  refine ⟨0, by simp [initState], by simpa [initState] using hfs, ?_, ?_, by simp [initState]⟩
  · intro j hj
    have hj0 : j = 0 := by omega
    subst hj0
    show setSlot emptyDisk 0 (some []) 0 = _
    rw [setSlot_same]
    simp [fileBlock]
  · intro j hj
    have hj1 : 1 ≤ j := by omega
    show setSlot emptyDisk 0 (some []) j = none
    rw [setSlot_other _ _ _ _ (by omega : j ≠ 0)]
    rfl

/-- Every state of the byte-at-a-time execution is well-formed. -/
theorem goodState_byteFold (cfg : Config) (hfs : 1 ≤ cfg.file_size) :
    ∀ w : List Byte, GoodState cfg w (byteFold cfg w initState) := by
  intro w
  induction w using List.reverseRecOn with
  | nil => exact goodState_init cfg hfs
  | append_singleton u b ih =>
    rw [byteFold, List.foldl_append]
    exact goodState_byteStep cfg hfs u b _ ih

/-! Refinement: the slice-wise inner loop of `run` computes the same
state as the byte-at-a-time fold. -/

theorem setSlot_setSlot (d : Disk) (i : Nat) (a b : Option (List Byte)) :
    setSlot (setSlot d i a) i b = setSlot d i b := by
  funext j
  by_cases hj : j = i <;> simp [setSlot, hj]

theorem writeBytes_append (cfg : Config) (st : RunState) (u v : List Byte) :
    writeBytes cfg (writeBytes cfg st u) v = writeBytes cfg st (u ++ v) := by
  refine RunState.ext ?_ ?_ ?_
  · funext j
    by_cases hj : j = 0 <;> simp [writeBytes, setSlot, hj, List.append_assoc]
  · simp [writeBytes]
    omega
  · cases hcfg : cfg.no_echo <;> simp [writeBytes, hcfg, List.append_assoc]

theorem byteFold_append (cfg : Config) (u v : List Byte) (st : RunState) :
    byteFold cfg (u ++ v) st = byteFold cfg v (byteFold cfg u st) := by
  simp [byteFold, List.foldl_append]

theorem maybeRotate_curSize_lt (cfg : Config) (hfs : 1 ≤ cfg.file_size)
    (st : RunState) (h : st.curSize ≤ cfg.file_size) :
    (maybeRotate cfg st).curSize < cfg.file_size := by
  unfold maybeRotate
  by_cases hc : cfg.file_size ≤ st.curSize
  · rw [if_pos hc]
    show (0 : Nat) < cfg.file_size
    omega
  · rw [if_neg hc]
    omega

theorem maybeRotate_disk0 (cfg : Config) (st : RunState)
    (h : ∃ g, st.disk 0 = some g) :
    ∃ g, (maybeRotate cfg st).disk 0 = some g := by
  unfold maybeRotate
  by_cases hc : cfg.file_size ≤ st.curSize
  · rw [if_pos hc]
    refine ⟨[], ?_⟩
    show rotate_inner cfg st.disk 0 = some []
    rw [rotate_inner]
    exact setSlot_same _ _ _
  · rw [if_neg hc]
    exact h

/-- Writing a slice that fits in the current file and then checking for
rotation is the same as moving the bytes one at a time. -/
theorem sliceEq (cfg : Config) (hfs : 1 ≤ cfg.file_size) :
    ∀ (bytes : List Byte) (st : RunState), st.curSize < cfg.file_size →
    st.curSize + bytes.length ≤ cfg.file_size →
    (∃ g, st.disk 0 = some g) →
    byteFold cfg bytes st = maybeRotate cfg (writeBytes cfg st bytes) := by
  intro bytes
  induction bytes with
  | nil =>
    rintro st hlt hle ⟨g, hg⟩
    show st = maybeRotate cfg (writeBytes cfg st [])
    have hw : writeBytes cfg st [] = st := by
      refine RunState.ext ?_ ?_ ?_
      · funext j
        by_cases hj : j = 0 <;> simp [writeBytes, setSlot, hj, hg]
      · simp [writeBytes]
      · cases hcfg : cfg.no_echo <;> simp [writeBytes, hcfg]
    rw [hw, maybeRotate, if_neg (by omega)]
  | cons b tl ih =>
    rintro st hlt hle ⟨g, hg⟩
    show byteFold cfg tl (byteStep cfg st b) = _
    by_cases hrot : cfg.file_size ≤ st.curSize + 1
    · have hlen : tl.length = 0 := by
        simp only [List.length_cons] at hle
        omega
      have htl : tl = [] := List.eq_nil_of_length_eq_zero hlen
      subst htl
      rfl
    · have hcur : (writeBytes cfg st [b]).curSize = st.curSize + 1 := by
        simp [writeBytes]
      have hstep : byteStep cfg st b = writeBytes cfg st [b] := by
        simp only [byteStep, maybeRotate, hcur]
        rw [if_neg hrot]
      have hdisk1 : ∃ g1, (writeBytes cfg st [b]).disk 0 = some g1 := by
        refine ⟨(st.disk 0).getD [] ++ [b], ?_⟩
        show setSlot st.disk 0 (some ((st.disk 0).getD [] ++ [b])) 0 = _
        exact setSlot_same _ _ _
      rw [hstep, ih (writeBytes cfg st [b])
        (by rw [hcur]; omega)
        (by rw [hcur]; simp only [List.length_cons] at hle; omega)
        hdisk1,
        writeBytes_append]
      rfl

theorem byteFold_curSize_lt (cfg : Config) (hfs : 1 ≤ cfg.file_size) :
    ∀ (w : List Byte) (st : RunState), st.curSize < cfg.file_size →
    (byteFold cfg w st).curSize < cfg.file_size := by
  intro w
  induction w with
  | nil => intro st h; exact h
  | cons b tl ih =>
    intro st h
    show (byteFold cfg tl (byteStep cfg st b)).curSize < cfg.file_size
    refine ih _ ?_
    refine maybeRotate_curSize_lt cfg hfs _ ?_
    show st.curSize + 1 ≤ cfg.file_size
    omega

theorem byteFold_disk0 (cfg : Config) :
    ∀ (w : List Byte) (st : RunState), (∃ g, st.disk 0 = some g) →
    ∃ g, (byteFold cfg w st).disk 0 = some g := by
  intro w
  induction w with
  | nil => intro st h; exact h
  | cons b tl ih =>
    intro st h
    show ∃ g, (byteFold cfg tl (byteStep cfg st b)).disk 0 = some g
    refine ih _ ?_
    refine maybeRotate_disk0 cfg _ ?_
    refine ⟨(st.disk 0).getD [] ++ [b], ?_⟩
    show setSlot st.disk 0 (some ((st.disk 0).getD [] ++ [b])) 0 = _
    exact setSlot_same _ _ _

/-- The fuel-counted inner loop terminates with the byte-fold result as
soon as the fuel exceeds the number of unprocessed bytes: each iteration
writes `write_size = min(remaining, file_size - cur_size) ≥ 1` bytes. -/
theorem innerLoop_eq (cfg : Config) (hfs : 1 ≤ cfg.file_size) :
    ∀ (fuel : Nat) (rest : List Byte) (st : RunState),
    rest.length < fuel → st.curSize < cfg.file_size →
    (∃ g, st.disk 0 = some g) →
    innerLoop cfg fuel rest st = some (byteFold cfg rest st) := by
  intro fuel
  induction fuel with
  | zero => intro rest st h; omega
  | succ fuel ih =>
    intro rest st hflen hlt hg0
    by_cases hrest : rest = []
    · subst hrest
      simp [innerLoop, byteFold]
    · have hlen1 : 1 ≤ rest.length := List.length_pos.mpr hrest
      simp only [innerLoop]
      rw [if_neg hrest]
      have hws1 : 1 ≤ min rest.length (cfg.file_size - st.curSize) := by omega
      have hwsle : min rest.length (cfg.file_size - st.curSize) ≤ rest.length :=
        Nat.min_le_left _ _
      have htake : (rest.take (min rest.length (cfg.file_size - st.curSize))).length
          = min rest.length (cfg.file_size - st.curSize) := by
        rw [List.length_take]
        omega
      have hslice : byteFold cfg (rest.take (min rest.length (cfg.file_size - st.curSize))) st
          = maybeRotate cfg (writeBytes cfg st
              (rest.take (min rest.length (cfg.file_size - st.curSize)))) := by
        refine sliceEq cfg hfs _ _ hlt ?_ hg0
        rw [htake]
        omega
      have hcur2 : (writeBytes cfg st
          (rest.take (min rest.length (cfg.file_size - st.curSize)))).curSize
          ≤ cfg.file_size := by
        show st.curSize + (rest.take _).length ≤ cfg.file_size
        rw [htake]
        omega
      have hg2 : ∃ g, (writeBytes cfg st
          (rest.take (min rest.length (cfg.file_size - st.curSize)))).disk 0 = some g := by
        refine ⟨(st.disk 0).getD [] ++
          rest.take (min rest.length (cfg.file_size - st.curSize)), ?_⟩
        show setSlot st.disk 0 (some ((st.disk 0).getD [] ++
          rest.take (min rest.length (cfg.file_size - st.curSize)))) 0 = _
        exact setSlot_same _ _ _
      rw [ih (rest.drop (min rest.length (cfg.file_size - st.curSize)))
        (maybeRotate cfg (writeBytes cfg st
          (rest.take (min rest.length (cfg.file_size - st.curSize)))))
        (by rw [List.length_drop]; omega)
        (maybeRotate_curSize_lt cfg hfs _ hcur2)
        (maybeRotate_disk0 cfg _ hg2)]
      have hsplit : byteFold cfg rest st
          = byteFold cfg (rest.drop (min rest.length (cfg.file_size - st.curSize)))
              (maybeRotate cfg (writeBytes cfg st
                (rest.take (min rest.length (cfg.file_size - st.curSize))))) := by
        conv_lhs => rw [← List.take_append_drop
          (min rest.length (cfg.file_size - st.curSize)) rest]
        rw [byteFold_append, hslice]
      rw [hsplit]

/-- The outer read loop computes the byte-fold of the whole stream. -/
theorem runLoop_eq (cfg : Config) (hfs : 1 ≤ cfg.file_size) :
    ∀ (chunks : List (List Byte)) (st : RunState),
    st.curSize < cfg.file_size → (∃ g, st.disk 0 = some g) →
    runLoop cfg chunks st = some (byteFold cfg chunks.flatten st) := by
  intro chunks
  induction chunks with
  | nil => intro st h hg; rfl
  | cons c rest ih =>
    intro st h hg
    simp only [runLoop,
      innerLoop_eq cfg hfs (c.length + 1) c st (by omega) h hg]
    rw [ih (byteFold cfg c st)
      (byteFold_curSize_lt cfg hfs c st h)
      (byteFold_disk0 cfg c st hg),
      List.flatten_cons, byteFold_append]

/-- `run` computes exactly the byte-fold of the concatenated input. -/
theorem run_eq (cfg : Config) (hfs : 1 ≤ cfg.file_size)
    (chunks : List (List Byte)) :
    run cfg chunks = some (byteFold cfg chunks.flatten initState) := by
  refine runLoop_eq cfg hfs chunks initState hfs ⟨[], ?_⟩
  show setSlot emptyDisk 0 (some []) 0 = some []
  exact setSlot_same _ _ _

/-! Reconstruction: concatenating the retained blocks from the highest
index down recovers a suffix of the stream (the whole stream while no
block has been evicted). -/

theorem diskConcat_good (fs : Nat) (w : List Byte) (d : Disk) (r c : Nat)
    (hW : w.length = r * fs + c) (hc : c < fs)
    (hsome : ∀ j, j ≤ r → d j = some (fileBlock fs w (r - j)))
    (hnone : ∀ j, r < j → d j = none) :
    ∀ m, diskConcat d m = w.drop ((r + 1 - m) * fs) := by
  intro m
  induction m with
  | zero =>
    show ([] : List Byte) = w.drop ((r + 1) * fs)
    symm
    apply List.drop_eq_nil_of_le
    rw [Nat.succ_mul]
    omega
  | succ m ih =>
    show (d m).getD [] ++ diskConcat d m = w.drop ((r + 1 - (m + 1)) * fs)
    rw [ih]
    rcases le_or_lt m r with hmr | hmr
    · rw [hsome m hmr]
      have h1 : r + 1 - (m + 1) = r - m := by omega
      have h2 : (r + 1 - m) * fs = (r - m) * fs + fs := by
        rw [show r + 1 - m = (r - m) + 1 from by omega, Nat.succ_mul]
      rw [h1, h2, ← List.drop_drop]
      exact List.take_append_drop fs (w.drop ((r - m) * fs))
    · rw [hnone m hmr]
      have h1 : r + 1 - (m + 1) = 0 := by omega
      have h2 : r + 1 - m = 0 := by omega
      rw [h1, h2]
      simp

/-! Error-free rotations complete the whole rename/create sequence. -/

theorem shiftLoopF_no_fail (fails : Nat → Bool) (hf : ∀ i, fails i = false) :
    ∀ (k : Nat) (d : Disk), shiftLoopF fails d k = Except.ok (shiftLoop d k) := by
  intro k
  induction k with
  | zero => intro d; rfl
  | succ k ih =>
    intro d
    have hfk : ¬(fails k = true) := by simp [hf k]
    by_cases hs : (d k).isSome = true
    · simp only [shiftLoopF, shiftLoop]
      rw [if_pos hs, if_pos hs, if_neg hfk]
      exact ih _
    · simp only [shiftLoopF, shiftLoop]
      rw [if_neg hs, if_neg hs]
      exact ih _

theorem rotate_inner_f_no_fail (cfg : Config) (fails : Nat → Bool)
    (hf : ∀ i, fails i = false) (d : Disk) :
    rotate_inner_f cfg fails false d = Except.ok (rotate_inner cfg d) := by
  simp only [rotate_inner_f, shiftLoopF_no_fail fails hf, rotate_inner]
  rfl

/-! Claim theorems. -/

/-- C3: for every call to `rotate`, the signal mask in effect after the
call equals the mask in effect before it on every exit path — both when
the inner rotation succeeds and when `rotate_inner` returns a file-system
error, the saved prior mask is restored before the result or error is
returned. -/
theorem c3_mask_restored (cfg : Config) (fails : Nat → Bool)
    (createFail : Bool) (d : Disk) (mask : SigMask) :
    maskAfter (rotate cfg fails createFail d mask) = mask := by
  rcases hres : rotate_inner_f cfg fails createFail d with d1 | d1 <;>
    simp [rotate, maskAfter, hres]

/-- C2 counterexample: the all-or-nothing guarantee fails on an error
return.  With three files, files present at indices 0 and 1, and the
rename of index 0 failing, `rotate_inner` propagates an error after the
rename of index 1 to index 2 has already happened: the resulting file set
has index 1 moved to index 2 while index 0 was never moved and no new
index-0 file was created — some files renamed, others not. -/
theorem c2_counterexample :
    isOkE (rotate_inner_f (Config.mk 1 3 true 1) (fun i => decide (i = 0))
      false (setSlot (setSlot emptyDisk 0 (some [10])) 1 (some [20]))) = false ∧
    resultDisk (rotate_inner_f (Config.mk 1 3 true 1) (fun i => decide (i = 0))
      false (setSlot (setSlot emptyDisk 0 (some [10])) 1 (some [20]))) 2 = some [20] ∧
    resultDisk (rotate_inner_f (Config.mk 1 3 true 1) (fun i => decide (i = 0))
      false (setSlot (setSlot emptyDisk 0 (some [10])) 1 (some [20]))) 1 = none ∧
    resultDisk (rotate_inner_f (Config.mk 1 3 true 1) (fun i => decide (i = 0))
      false (setSlot (setSlot emptyDisk 0 (some [10])) 1 (some [20]))) 0 = some [10] := by
  decide

/-- C2 (amended): for every invocation of `rotate` in which no rename and
no create fails, the full rename-shift sequence plus the creation of the
new index-0 file completes (and the saved signal mask is restored); on a
mid-sequence file-system error the renames already performed at higher
indices persist, so the all-or-nothing guarantee holds only for
error-free invocations. -/
theorem c2_atomic_no_error (cfg : Config) (fails : Nat → Bool) (d : Disk)
    (mask : SigMask) (hf : ∀ i, fails i = false) :
    rotate cfg fails false d mask = Except.ok (rotate_inner cfg d, mask) := by
  simp only [rotate, rotate_inner_f_no_fail cfg fails hf d]

/-- C2 witness: the amended theorem at a concrete error-free invocation. -/
theorem c2_atomic_no_error_witness :
    (∀ i : Nat, (fun _ : Nat => false) i = false) ∧
    rotate (Config.mk 1 2 true 1) (fun _ => false) false
      (setSlot emptyDisk 0 (some [7])) (fun _ => false) =
      Except.ok (rotate_inner (Config.mk 1 2 true 1)
        (setSlot emptyDisk 0 (some [7])), fun _ => false) :=
  ⟨fun _ => rfl,
    c2_atomic_no_error (Config.mk 1 2 true 1) (fun _ => false)
      (setSlot emptyDisk 0 (some [7])) (fun _ => false) (fun _ => rfl)⟩

/-- C6: `rotate_inner` renames in strictly descending index order, so
slot 0 ends as the fresh empty file, each slot `j` with `1 ≤ j < max`
receives the previous occupant of slot `j - 1` (or becomes empty when
there was none) — no retained file is overwritten before it has itself
been moved — the previous occupant of the top slot `num_files - 1` is
discarded whenever a file is renamed onto it, slots at index
`≥ num_files` are never touched, and when no file exists at index
`≥ num_files` beforehand none exists afterwards, so at most `num_files`
files exist simultaneously. -/
theorem c6_rotation_shape (cfg : Config) (d : Disk) (hn : 1 ≤ cfg.num_files) :
    rotate_inner cfg d 0 = some [] ∧
    (∀ j, 1 ≤ j → j < cfg.num_files - 1 →
      rotate_inner cfg d j = if (d (j - 1)).isSome then d (j - 1) else none) ∧
    (2 ≤ cfg.num_files →
      rotate_inner cfg d (cfg.num_files - 1) =
        if (d (cfg.num_files - 2)).isSome then d (cfg.num_files - 2)
        else d (cfg.num_files - 1)) ∧
    (∀ j, cfg.num_files ≤ j → rotate_inner cfg d j = d j) ∧
    ((∀ j, cfg.num_files ≤ j → d j = none) →
      ∀ j, (rotate_inner cfg d j).isSome → j < cfg.num_files) := by
  refine ⟨?_, ?_, ?_, ?_, ?_⟩
  · rw [rotate_inner]
    exact setSlot_same _ _ _
  · intro j h1 h2
    rw [rotate_inner, setSlot_other _ _ _ _ (by omega)]
    exact shiftLoop_mid _ _ _ h1 h2
  · intro h2
    rw [rotate_inner, setSlot_other _ _ _ _ (by omega : cfg.num_files - 1 ≠ 0)]
    obtain ⟨m, hm⟩ : ∃ m, cfg.num_files - 1 = m + 1 := ⟨cfg.num_files - 2, by omega⟩
    have hm2 : m = cfg.num_files - 2 := by omega
    rw [hm, shiftLoop_top, hm2]
  · intro j hj
    rw [rotate_inner, setSlot_other _ _ _ _ (by omega)]
    exact shiftLoop_gt _ _ _ (by omega)
  · intro hsup j hj
    by_contra hge
    have h2 : rotate_inner cfg d j = d j := by
      rw [rotate_inner, setSlot_other _ _ _ _ (by omega)]
      exact shiftLoop_gt _ _ _ (by omega)
    rw [h2, hsup j (by omega)] at hj
    simp at hj

/-- C6 witness: the characterisation at a concrete configuration and
file set. -/
theorem c6_rotation_shape_witness :
    1 ≤ (Config.mk 1 3 true 1).num_files ∧
    (rotate_inner (Config.mk 1 3 true 1)
        (setSlot (setSlot emptyDisk 0 (some [1])) 1 (some [2])) 0 = some [] ∧
      (∀ j, 1 ≤ j → j < (Config.mk 1 3 true 1).num_files - 1 →
        rotate_inner (Config.mk 1 3 true 1)
          (setSlot (setSlot emptyDisk 0 (some [1])) 1 (some [2])) j =
          if ((setSlot (setSlot emptyDisk 0 (some [1])) 1 (some [2])) (j - 1)).isSome
          then (setSlot (setSlot emptyDisk 0 (some [1])) 1 (some [2])) (j - 1)
          else none) ∧
      (2 ≤ (Config.mk 1 3 true 1).num_files →
        rotate_inner (Config.mk 1 3 true 1)
          (setSlot (setSlot emptyDisk 0 (some [1])) 1 (some [2]))
          ((Config.mk 1 3 true 1).num_files - 1) =
          if ((setSlot (setSlot emptyDisk 0 (some [1])) 1 (some [2]))
              ((Config.mk 1 3 true 1).num_files - 2)).isSome
          then (setSlot (setSlot emptyDisk 0 (some [1])) 1 (some [2]))
            ((Config.mk 1 3 true 1).num_files - 2)
          else (setSlot (setSlot emptyDisk 0 (some [1])) 1 (some [2]))
            ((Config.mk 1 3 true 1).num_files - 1)) ∧
      (∀ j, (Config.mk 1 3 true 1).num_files ≤ j →
        rotate_inner (Config.mk 1 3 true 1)
          (setSlot (setSlot emptyDisk 0 (some [1])) 1 (some [2])) j =
          (setSlot (setSlot emptyDisk 0 (some [1])) 1 (some [2])) j) ∧
      ((∀ j, (Config.mk 1 3 true 1).num_files ≤ j →
          (setSlot (setSlot emptyDisk 0 (some [1])) 1 (some [2])) j = none) →
        ∀ j, (rotate_inner (Config.mk 1 3 true 1)
          (setSlot (setSlot emptyDisk 0 (some [1])) 1 (some [2])) j).isSome →
          j < (Config.mk 1 3 true 1).num_files)) :=
  ⟨by decide,
    c6_rotation_shape (Config.mk 1 3 true 1)
      (setSlot (setSlot emptyDisk 0 (some [1])) 1 (some [2])) (by decide)⟩

/-- C1 counterexample: with `num_files = 1` and `file_size = 1`, the
input `[0]` fills the file, rotation recreates index 0 empty (the old
content is discarded — there is no higher slot to keep it), and the
concatenation of the final output files is empty, not the input.  The
claim fails as soon as the input is long enough to evict a file from the
retention window. -/
theorem c1_counterexample :
    (run (Config.mk 1 1 true 1) [[0]]).map
        (fun st => diskConcat st.disk (Config.mk 1 1 true 1).num_files)
      ≠ some (List.flatten [[0]]) := by
  decide

/-- C1 (amended): for every finite input and validated configuration
such that no file is evicted from the retention window — i.e. the input
is shorter than `num_files * file_size`, so at most `num_files - 1`
rotations occur — reading the output files from the highest index down
to index 0 and concatenating their contents reconstructs exactly the
original input stream, with no gaps, duplicated bytes, or reordering. -/
theorem c1_reconstruction (cfg : Config) (chunks : List (List Byte))
    (hfs : 1 ≤ cfg.file_size) (hn : 1 ≤ cfg.num_files)
    (hfit : chunks.flatten.length < cfg.num_files * cfg.file_size) :
    (run cfg chunks).map (fun st => diskConcat st.disk cfg.num_files)
      = some chunks.flatten := by
  rw [run_eq cfg hfs chunks, Option.map_some']
  obtain ⟨r, hW, hc, hsome, hnone, hm⟩ :=
    goodState_byteFold cfg hfs chunks.flatten
  have hr : r ≤ cfg.num_files - 1 := by
    by_contra hcon
    have h1 : cfg.num_files * cfg.file_size ≤ r * cfg.file_size :=
      Nat.mul_le_mul_right _ (by omega)
    omega
  have hmin : min r (cfg.num_files - 1) = r := by omega
  rw [hmin] at hsome hnone
  have hdc := diskConcat_good cfg.file_size chunks.flatten
    (byteFold cfg chunks.flatten initState).disk r
    (byteFold cfg chunks.flatten initState).curSize hW hc hsome hnone
    cfg.num_files
  rw [hdc, show r + 1 - cfg.num_files = 0 from by omega]
  simp

/-- C1 witness: the amended theorem at the concrete scenario of the
specification (25 input bytes, `file_size = 10`, `max_files = 3`). -/
theorem c1_reconstruction_witness :
    1 ≤ (Config.mk 10 3 false 100).file_size ∧
    1 ≤ (Config.mk 10 3 false 100).num_files ∧
    (List.range 25).length <
      (Config.mk 10 3 false 100).num_files * (Config.mk 10 3 false 100).file_size ∧
    (run (Config.mk 10 3 false 100) [List.range 25]).map
        (fun st => diskConcat st.disk (Config.mk 10 3 false 100).num_files)
      = some [List.range 25].flatten :=
  ⟨by decide, by decide, by decide,
    c1_reconstruction (Config.mk 10 3 false 100) [List.range 25]
      (by decide) (by decide) (by decide)⟩

/-- C4: `cur_size` never exceeds `file_size` at any point of the run
(every write is capped at `file_size - cur_size` and rotation fires
exactly when `cur_size` reaches `file_size`), every rotated-out file
(index `≥ 1`) has size exactly `file_size`, and the currently open
index-0 file has size at most `file_size` — stated for every
intermediate state of the data-movement loop and for the final state of
`run`. -/
theorem c4_size_invariant (cfg : Config) (hfs : 1 ≤ cfg.file_size)
    (hn : 1 ≤ cfg.num_files) :
    (∀ w : List Byte,
      (byteFold cfg w initState).curSize ≤ cfg.file_size ∧
      (∀ j l, 1 ≤ j → (byteFold cfg w initState).disk j = some l →
        l.length = cfg.file_size) ∧
      (∀ l, (byteFold cfg w initState).disk 0 = some l →
        l.length ≤ cfg.file_size)) ∧
    (∀ (chunks : List (List Byte)) (st : RunState), run cfg chunks = some st →
      st.curSize ≤ cfg.file_size ∧
      (∀ j l, 1 ≤ j → st.disk j = some l → l.length = cfg.file_size) ∧
      (∀ l, st.disk 0 = some l → l.length ≤ cfg.file_size)) := by
  have main : ∀ w : List Byte,
      (byteFold cfg w initState).curSize ≤ cfg.file_size ∧
      (∀ j l, 1 ≤ j → (byteFold cfg w initState).disk j = some l →
        l.length = cfg.file_size) ∧
      (∀ l, (byteFold cfg w initState).disk 0 = some l →
        l.length ≤ cfg.file_size) := by
    intro w
    obtain ⟨r, hW, hc, hsome, hnone, hm⟩ := goodState_byteFold cfg hfs w
    refine ⟨by omega, ?_, ?_⟩
    · intro j l hj hl
      by_cases hjm : j ≤ min r (cfg.num_files - 1)
      · have h2 := hsome j hjm
        rw [hl] at h2
        have h3 : l = fileBlock cfg.file_size w (r - j) := Option.some_inj.mp h2
        have hjr : j ≤ r := le_trans hjm (Nat.min_le_left _ _)
        rw [h3]
        exact fileBlock_full_length cfg.file_size w (r - j)
          (block_end_le (r - j) r cfg.file_size w.length
            (byteFold cfg w initState).curSize (by omega) hW)
      · rw [hnone j (by omega)] at hl
        exact absurd hl (by simp)
    · intro l hl
      have h2 := hsome 0 (Nat.zero_le _)
      rw [hl] at h2
      have h3 : l = fileBlock cfg.file_size w (r - 0) := Option.some_inj.mp h2
      rw [h3, Nat.sub_zero, fileBlock_length]
      omega
  refine ⟨main, ?_⟩
  intro chunks st hst
  rw [run_eq cfg hfs chunks] at hst
  exact Option.some_inj.mp hst ▸ main chunks.flatten

/-- C4 witness: the invariant at a concrete validated configuration. -/
theorem c4_size_invariant_witness :
    1 ≤ (Config.mk 2 2 false 4).file_size ∧
    1 ≤ (Config.mk 2 2 false 4).num_files ∧
    ((∀ w : List Byte,
      (byteFold (Config.mk 2 2 false 4) w initState).curSize ≤
        (Config.mk 2 2 false 4).file_size ∧
      (∀ j l, 1 ≤ j →
        (byteFold (Config.mk 2 2 false 4) w initState).disk j = some l →
        l.length = (Config.mk 2 2 false 4).file_size) ∧
      (∀ l, (byteFold (Config.mk 2 2 false 4) w initState).disk 0 = some l →
        l.length ≤ (Config.mk 2 2 false 4).file_size)) ∧
    (∀ (chunks : List (List Byte)) (st : RunState),
      run (Config.mk 2 2 false 4) chunks = some st →
      st.curSize ≤ (Config.mk 2 2 false 4).file_size ∧
      (∀ j l, 1 ≤ j → st.disk j = some l →
        l.length = (Config.mk 2 2 false 4).file_size) ∧
      (∀ l, st.disk 0 = some l → l.length ≤ (Config.mk 2 2 false 4).file_size))) :=
  ⟨by decide, by decide,
    c4_size_invariant (Config.mk 2 2 false 4) (by decide) (by decide)⟩

/-- C5: when echoing is enabled (`no_echo = false`), the byte sequence
written to the mirror stream equals the input byte sequence exactly,
byte for byte and in order, for every input chunking and any number of
rotations. -/
theorem c5_mirror (cfg : Config) (chunks : List (List Byte))
    (hfs : 1 ≤ cfg.file_size) (hecho : cfg.no_echo = false) :
    ∃ st, run cfg chunks = some st ∧ st.mirror = chunks.flatten := by
  refine ⟨_, run_eq cfg hfs chunks, ?_⟩
  obtain ⟨r, hW, hc, hsome, hnone, hm⟩ :=
    goodState_byteFold cfg hfs chunks.flatten
  rw [hm, hecho]
  simp

/-- C5 witness: mirror fidelity on a concrete run that rotates twice. -/
theorem c5_mirror_witness :
    1 ≤ (Config.mk 2 2 false 4).file_size ∧
    (Config.mk 2 2 false 4).no_echo = false ∧
    ∃ st, run (Config.mk 2 2 false 4) [[1, 2, 3], [4, 5]] = some st ∧
      st.mirror = [[1, 2, 3], [4, 5]].flatten :=
  ⟨by decide, by decide,
    c5_mirror (Config.mk 2 2 false 4) [[1, 2, 3], [4, 5]]
      (by decide) (by decide)⟩

/-- C7: if any of `file_size`, `num_files`, or `buffer_size` is zero,
`main` exits with non-zero status before performing any I/O and no
output file is ever created; if all three are non-zero, validation
passes, the run starts by creating the index-0 output file, and `main`
finishes the run (exit code 0 absent I/O errors) with the index-0 file
present. -/
theorem c7_validation (cfg : Config) (chunks : List (List Byte)) :
    ((cfg.buffer_size = 0 ∨ cfg.num_files = 0 ∨ cfg.file_size = 0) →
      mainModel cfg chunks = ⟨1, emptyDisk⟩ ∧ ∀ j, emptyDisk j = none) ∧
    (cfg.buffer_size ≠ 0 → cfg.num_files ≠ 0 → cfg.file_size ≠ 0 →
      ∃ st, run cfg chunks = some st ∧
        mainModel cfg chunks = ⟨0, st.disk⟩ ∧
        initState.disk 0 = some [] ∧ (st.disk 0).isSome) := by
  constructor
  · intro h
    refine ⟨?_, fun j => rfl⟩
    rcases h with h | h | h <;> simp [mainModel, h]
  · intro hb hn hfsz
    have hfs : 1 ≤ cfg.file_size := by omega
    refine ⟨byteFold cfg chunks.flatten initState, run_eq cfg hfs chunks,
      ?_, ?_, ?_⟩
    · simp only [mainModel, if_neg hb, if_neg hn, if_neg hfsz,
        run_eq cfg hfs chunks]
    · show setSlot emptyDisk 0 (some []) 0 = some []
      exact setSlot_same _ _ _
    · obtain ⟨g, hg⟩ := byteFold_disk0 cfg chunks.flatten initState
        ⟨[], by
          show setSlot emptyDisk 0 (some []) 0 = some []
          exact setSlot_same _ _ _⟩
      rw [hg]
      rfl

/-- C7 witness: the rejection branch at `file_size = 0` and the
acceptance branch at an all-non-zero configuration. -/
theorem c7_validation_witness :
    ((Config.mk 0 8 false 1024).buffer_size = 0 ∨
      (Config.mk 0 8 false 1024).num_files = 0 ∨
      (Config.mk 0 8 false 1024).file_size = 0) ∧
    (mainModel (Config.mk 0 8 false 1024) [[1]] = ⟨1, emptyDisk⟩ ∧
      ∀ j, emptyDisk j = none) ∧
    (Config.mk 2 2 false 4).buffer_size ≠ 0 ∧
    (Config.mk 2 2 false 4).num_files ≠ 0 ∧
    (Config.mk 2 2 false 4).file_size ≠ 0 ∧
    (∃ st, run (Config.mk 2 2 false 4) [[5]] = some st ∧
      mainModel (Config.mk 2 2 false 4) [[5]] = ⟨0, st.disk⟩ ∧
      initState.disk 0 = some [] ∧ (st.disk 0).isSome) :=
  ⟨Or.inr (Or.inr rfl),
    (c7_validation (Config.mk 0 8 false 1024) [[1]]).1 (Or.inr (Or.inr rfl)),
    by decide, by decide, by decide,
    (c7_validation (Config.mk 2 2 false 4) [[5]]).2
      (by decide) (by decide) (by decide)⟩

/-- C8: if the total input length is a positive exact multiple of
`file_size`, then at end of stream the most recently created index-0
file is empty (rotation fires immediately when `cur_size` reaches the
limit, even at end of input) and that empty file still occupies the
index-0 slot of the retention window. -/
theorem c8_exact_multiple (cfg : Config) (chunks : List (List Byte))
    (k : Nat) (hfs : 1 ≤ cfg.file_size) (hk : 1 ≤ k)
    (hlen : chunks.flatten.length = k * cfg.file_size) :
    ∃ st, run cfg chunks = some st ∧ st.disk 0 = some [] ∧
      st.curSize = 0 ∧ (st.disk 0).isSome := by
  refine ⟨_, run_eq cfg hfs chunks, ?_⟩
  obtain ⟨r, hW, hc, hsome, hnone, hm⟩ :=
    goodState_byteFold cfg hfs chunks.flatten
  have hc0 : (byteFold cfg chunks.flatten initState).curSize = 0 := by
    have h1 : (r * cfg.file_size +
        (byteFold cfg chunks.flatten initState).curSize) % cfg.file_size =
        (k * cfg.file_size) % cfg.file_size := by
      rw [← hW, hlen]
    rw [Nat.mul_mod_left, Nat.mul_comm r cfg.file_size, Nat.mul_add_mod,
      Nat.mod_eq_of_lt hc] at h1
    exact h1
  have hd0 := hsome 0 (Nat.zero_le _)
  rw [Nat.sub_zero] at hd0
  have hblock : fileBlock cfg.file_size chunks.flatten r = [] := by
    apply fileBlock_of_le
    omega
  rw [hblock] at hd0
  exact ⟨hd0, hc0, by rw [hd0]; rfl⟩

/-- C8 witness: four input bytes with `file_size = 2` (so `k = 2`). -/
theorem c8_exact_multiple_witness :
    1 ≤ (Config.mk 2 2 true 4).file_size ∧ 1 ≤ 2 ∧
    ([[5, 6, 7, 8]] : List (List Byte)).flatten.length =
      2 * (Config.mk 2 2 true 4).file_size ∧
    ∃ st, run (Config.mk 2 2 true 4) [[5, 6, 7, 8]] = some st ∧
      st.disk 0 = some [] ∧ st.curSize = 0 ∧ (st.disk 0).isSome :=
  ⟨by decide, by decide, by decide,
    c8_exact_multiple (Config.mk 2 2 true 4) [[5, 6, 7, 8]] 2
      (by decide) (by decide) (by decide)⟩

/-- C9: for every finite input stream (a finite list of non-empty reads,
each at most `buffer_size` bytes, ending with the zero-byte read that
breaks the loop) and every validated configuration, `run` terminates
with success: each inner iteration writes
`min(remaining, file_size - cur_size) ≥ 1` bytes, so the chunk cursor
strictly advances, and the end of the input exits the loop with `Ok`. -/
theorem c9_termination (cfg : Config) (chunks : List (List Byte))
    (hfs : 1 ≤ cfg.file_size) (hn : 1 ≤ cfg.num_files)
    (hb : 1 ≤ cfg.buffer_size)
    (hchunks : ∀ c ∈ chunks, c ≠ [] ∧ c.length ≤ cfg.buffer_size) :
    ∃ st, run cfg chunks = some st :=
  ⟨_, run_eq cfg hfs chunks⟩

/-- C9 witness: termination on a concrete two-chunk input. -/
theorem c9_termination_witness :
    1 ≤ (Config.mk 1 1 true 2).file_size ∧
    1 ≤ (Config.mk 1 1 true 2).num_files ∧
    1 ≤ (Config.mk 1 1 true 2).buffer_size ∧
    (∀ c ∈ ([[9], [8, 7]] : List (List Byte)),
      c ≠ [] ∧ c.length ≤ (Config.mk 1 1 true 2).buffer_size) ∧
    ∃ st, run (Config.mk 1 1 true 2) [[9], [8, 7]] = some st :=
  ⟨by decide, by decide, by decide, by decide,
    c9_termination (Config.mk 1 1 true 2) [[9], [8, 7]]
      (by decide) (by decide) (by decide) (by decide)⟩

/-- C10: under the validated preconditions, both subtractions of the
core are well-defined over the naturals: `num_files - 1` (the rename
loop bound) agrees with the integer difference, and
`file_size - cur_size` never underflows because `cur_size < file_size`
holds at every state where the subtraction is evaluated (`cur_size` is
reset to 0 the moment it reaches `file_size`). -/
theorem c10_no_underflow (cfg : Config) (hfs : 1 ≤ cfg.file_size)
    (hn : 1 ≤ cfg.num_files) :
    ((cfg.num_files : Int) - 1 = ((cfg.num_files - 1 : Nat) : Int)) ∧
    (∀ w : List Byte,
      (byteFold cfg w initState).curSize < cfg.file_size ∧
      ((cfg.file_size : Int) - ((byteFold cfg w initState).curSize : Int) =
        ((cfg.file_size - (byteFold cfg w initState).curSize : Nat) : Int))) := by
  refine ⟨by omega, ?_⟩
  intro w
  obtain ⟨r, hW, hc, hsome, hnone, hm⟩ := goodState_byteFold cfg hfs w
  exact ⟨hc, by omega⟩

/-- C10 witness: the subtraction facts at a concrete configuration. -/
theorem c10_no_underflow_witness :
    1 ≤ (Config.mk 3 2 true 1).file_size ∧
    1 ≤ (Config.mk 3 2 true 1).num_files ∧
    ((((Config.mk 3 2 true 1).num_files : Int) - 1 =
      (((Config.mk 3 2 true 1).num_files - 1 : Nat) : Int)) ∧
    (∀ w : List Byte,
      (byteFold (Config.mk 3 2 true 1) w initState).curSize <
        (Config.mk 3 2 true 1).file_size ∧
      (((Config.mk 3 2 true 1).file_size : Int) -
          ((byteFold (Config.mk 3 2 true 1) w initState).curSize : Int) =
        (((Config.mk 3 2 true 1).file_size -
          (byteFold (Config.mk 3 2 true 1) w initState).curSize : Nat) : Int)))) :=
  ⟨by decide, by decide,
    c10_no_underflow (Config.mk 3 2 true 1) (by decide) (by decide)⟩
